import Mathlib

/-!
Verification of the kernel-search log visualiser core
(`visualize_log_run.py` / `kernel_viz.py`).

The development shallowly embeds the three algorithmic pieces of the
repository: the recursive-descent expression parser (`_parse_expr`,
`_parse_base`, `parse_kernel_expr`), the line-oriented log state machine
(`parse_log`), and the path addressing / correlation used by the mutation
diff (`_add_kernel_to_graph`, `render_kernel_mutation`), together with the
per-round timeline orchestration of `visualize_log_run` (step sorting,
score range, chain building).

Python strings are embedded as `String` / `List Char`; Python floats are
embedded as exact rationals (the claims under study never depend on binary
floating-point rounding, only on the syntactic success of `float()` and on
order/emptiness); code that can raise is embedded as `Option`/a dedicated
error constructor, with `none`/`err` marking the raised exception.
-/

/-- Python `str.isspace` on the ASCII range (the log format is ASCII). -/
def pyIsSpace (c : Char) : Bool :=
  c == ' ' || c == '\t' || c == '\n' || c == '\r' || c == '\x0b' || c == '\x0c'

/-- Python `str.strip()`: drop leading and trailing whitespace. -/
def pyStripL (l : List Char) : List Char :=
  ((l.dropWhile pyIsSpace).reverse.dropWhile pyIsSpace).reverse

/-- Expression tree built by the parser (`KernelNode` in the source): a leaf
carries a kernel name, an internal node carries one operator character and
two children.  The source's dataclass invariant (exactly one of the two
shapes, with the operator a single character taken from the input) is the
tagged union below. -/
inductive KernelNode where
  | leaf (name : String)
  | node (op : Char) (left : KernelNode) (right : KernelNode)
  deriving DecidableEq

/-- `KernelNode.pretty` from the source: a leaf prints its name (`"?"` when
the name is empty, mirroring `self.name or "?"`), an internal node prints
`(left op right)`. -/
def KernelNode.pretty : KernelNode → String
  | .leaf n => if n = "" then "?" else n
  | .node op l r =>
      "(" ++ l.pretty ++ " " ++ String.singleton op ++ " " ++ r.pretty ++ ")"

/-- One pass of Python `str.replace(cc, "")` for a doubled-character pattern:
remove leftmost non-overlapping adjacent pairs of `c`. -/
def removeDouble (c : Char) : List Char → List Char
  | [] => []
  | [a] => [a]
  | a :: b :: rest =>
      if a = c ∧ b = c then removeDouble c rest
      else a :: removeDouble c (b :: rest)

/-- `_strip_highlight`: `s.replace("[[", "").replace("]]", "").strip()`. -/
def stripHighlight (l : List Char) : List Char :=
  pyStripL (removeDouble ']' (removeDouble '[' l))

/-- `_strip_highlight` on `String`s. -/
def stripHighlightS (s : String) : String := String.mk (stripHighlight s.data)

/-- The characters at which the leaf-token scan of `_parse_base` stops: the
explicit delimiter list `[" ", ")", "+", "*"]` plus the `break` on `"("`. -/
def isTokStop (c : Char) : Bool :=
  c == ' ' || c == ')' || c == '+' || c == '*' || c == '('

/-- The matching-paren-depth scan of `_parse_base`: called at an opening
parenthesis with depth 0, consume up to and including the matching close
(or to the end of input); returns (consumed, rest). -/
def parenSpan (depth : Nat) : List Char → List Char × List Char
  | [] => ([], [])
  | c :: rest =>
      if c = '(' then
        (c :: (parenSpan (depth + 1) rest).1, (parenSpan (depth + 1) rest).2)
      else if c = ')' then
        if depth = 1 then ([c], rest)
        else (c :: (parenSpan (depth - 1) rest).1, (parenSpan (depth - 1) rest).2)
      else (c :: (parenSpan depth rest).1, (parenSpan depth rest).2)

/-- The leaf scan `_parse_base` (total): scan to the first delimiter; if the
scan stopped at `(`, additionally take a full matching-paren span (so the
token in the paren branch always contains `(` and is never empty after
stripping); strip the token; an empty token yields the placeholder leaf
`"X"` and the position still advances by one character. -/
def parseBase (s : List Char) : KernelNode × List Char :=
  let t1 := s.takeWhile (fun c => !isTokStop c)
  let r1 := s.drop t1.length
  if r1.head? = some '(' then
    (KernelNode.leaf (String.mk (pyStripL (t1 ++ (parenSpan 0 r1).1))), (parenSpan 0 r1).2)
  else if pyStripL t1 = [] then (KernelNode.leaf "X", s.drop (t1.length + 1))
  else (KernelNode.leaf (String.mk (pyStripL t1)), r1)

/-- Outcome of `_parse_expr` on a suffix: a tree plus the unconsumed rest,
or `err` for the `IndexError` the source raises at the unguarded operator
read `op = s[i]`. -/
inductive PRes where
  | ok (t : KernelNode) (rest : List Char)
  | err
  deriving DecidableEq

/-- Fuelled `_parse_expr`: `none` means out of fuel (never reached when the
fuel exceeds the input length, see `parseExprF_isSome`); `some PRes.err`
models the `IndexError` raised when the input ends at the operator
position of a parenthesized form. -/
def parseExprF : Nat → List Char → Option PRes
  | 0, _ => none
  | fuel + 1, s =>
      match s.dropWhile pyIsSpace with
      | [] => some (PRes.ok (KernelNode.leaf "?") [])
      | c :: rest =>
          if c = '(' then
            match parseExprF fuel rest with
            | none => none
            | some PRes.err => some PRes.err
            | some (PRes.ok l s2) =>
                match s2.dropWhile pyIsSpace with
                | [] => some PRes.err
                | op :: s4 =>
                    match parseExprF fuel s4 with
                    | none => none
                    | some PRes.err => some PRes.err
                    | some (PRes.ok r s5) =>
                        match s5.dropWhile pyIsSpace with
                        | ')' :: s7 => some (PRes.ok (KernelNode.node op l r) s7)
                        | s6 => some (PRes.ok (KernelNode.node op l r) s6)
          else some (PRes.ok (parseBase (c :: rest)).1 (parseBase (c :: rest)).2)

/-- `_parse_expr` run with enough fuel (each recursive call moves to a
strictly shorter suffix, so length + 1 dominates the recursion depth; the
`getD` default branch is dead by `parseExprF_isSome`). -/
def parseExprTop (s : List Char) : PRes :=
  (parseExprF (s.length + 1) s).getD PRes.err

/-- `parse_kernel_expr`: strip highlight markers, then parse; `none` models
the escaping `IndexError`. -/
def parseKernelExpr (s : String) : Option KernelNode :=
  match parseExprTop (stripHighlight s.data) with
  | PRes.ok t _ => some t
  | PRes.err => none

/-- `_path_to_tuple`: `"root"` and the empty string denote the root path,
any other string is one path element per character. -/
def pathToTuple (s : String) : List Char :=
  if s = "root" ∨ s = "" then [] else s.data

/-- The node paths enumerated by `_add_kernel_to_graph` (and `_build_graph`)
for a tree rooted at the given node.  Because the `KernelNode` dataclass
always has `left`/`right` attributes, the duck-typed `_is_binary` probe is
true for every `KernelNode`; a leaf therefore also enumerates its two `None`
children (which render as placeholder `"X"` boxes) at paths `p ++ [L]` and
`p ++ [R]`, and the recursion stops there because `None` has no attributes. -/
def nodePaths : KernelNode → List (List Char)
  | .leaf _ => [[], ['L'], ['R']]
  | .node _ l r =>
      [] :: ((nodePaths l).map (fun p => 'L' :: p) ++
             (nodePaths r).map (fun p => 'R' :: p))

/-- Path resolution following the specification's words (section 4.2): start
at the root, follow `left` for `L` and `right` for `R` through internal
nodes; reaching a leaf before the path is exhausted is "no match".  Kept
separate from `nodePaths` (the code's mechanism) so the two can be
compared. -/
def specResolve : KernelNode → List Char → Option KernelNode
  | t, [] => some t
  | .leaf _, _ :: _ => none
  | .node _ l r, c :: p =>
      if c = 'L' then specResolve l p
      else if c = 'R' then specResolve r p
      else none

/-- The cross-snapshot correlation edge of `render_kernel_mutation`: with a
sever path present, an edge is requested iff both snapshots enumerate a node
whose path equals the sever path (`if before_id and after_id`). -/
def edgeRequested (b a : KernelNode) (sever : Option (List Char)) : Bool :=
  match sever with
  | none => false
  | some p => (nodePaths b).contains p && (nodePaths a).contains p

/-- Accept/reject decision of a step. -/
inductive Status where
  | accept
  | reject
  deriving DecidableEq

/-- One parsed step record (the step dict of `parse_log`): the three text
fields are absent until the corresponding log line is seen. -/
structure Step where
  idx : Nat
  status : Status
  log_alpha : ℚ
  sever_path : Option String
  before : Option String
  after : Option String
  deriving DecidableEq

/-- One parsed round record (the round dict of `parse_log`). -/
structure Round where
  init : String
  steps : List Step
  deriving DecidableEq

/-- Value of a digit run as a natural number. -/
def digitsToNat (l : List Char) : Nat :=
  l.foldl (fun n c => n * 10 + (c.toNat - 48)) 0

/-- Helper for `pyFloatQ`: an unsigned float literal over digits and at most
one decimal point. -/
def pyFloatUnsigned (s : List Char) : Option ℚ :=
  let ip := s.takeWhile Char.isDigit
  match s.drop ip.length with
  | [] => if ip = [] then none else some (digitsToNat ip : ℚ)
  | '.' :: frac =>
      if frac.all Char.isDigit ∧ (ip ≠ [] ∨ frac ≠ []) then
        some ((digitsToNat ip : ℚ) + (digitsToNat frac : ℚ) / ((10 : ℚ) ^ frac.length))
      else none
  | _ => none

/-- Python `float()` restricted to the character class `[-0-9.]` that the
Step regular expression's capture group can produce: an optional leading
minus, then at least one digit and at most one decimal point; `none` models
the `ValueError` on anything else (e.g. `"-"`, `"."`, `"1.2.3"`). The value
is the exact rational denoted by the literal. -/
def pyFloatQ : List Char → Option ℚ
  | '-' :: rest => (pyFloatUnsigned rest).map (fun q => -q)
  | s => pyFloatUnsigned s

/-- Consume an exact literal prefix, returning the rest. -/
def matchLit : List Char → List Char → Option (List Char)
  | [], s => some s
  | _ :: _, [] => none
  | p :: ps, c :: cs => if p = c then matchLit ps cs else none

/-- Consume one-or-more whitespace characters (`\s+`, maximal munch; in the
Step pattern every `\s+` is followed by a non-whitespace token, so maximal
munch agrees with the regular expression's backtracking semantics). -/
def matchWs1 : List Char → Option (List Char)
  | [] => none
  | c :: rest => if pyIsSpace c then some (rest.dropWhile pyIsSpace) else none

/-- Consume one-or-more digits (`(\d+)`), returning the digit run. -/
def matchDigits1 (s : List Char) : Option (List Char × List Char) :=
  let d := s.takeWhile Char.isDigit
  if d = [] then none else some (d, s.drop d.length)

/-- The `(accept|reject)` alternation (the branches start with different
letters, so first-match is the regular expression's semantics). -/
def matchStatus (s : List Char) : Option (Status × List Char) :=
  match matchLit ("accept".data) s with
  | some r => some (Status.accept, r)
  | none =>
      match matchLit ("reject".data) s with
      | some r => some (Status.reject, r)
      | none => none

/-- Character class of the `log_alpha` capture group `([-\d\.]+)`. -/
def isAlphaFieldChar (c : Char) : Bool := c == '-' || c.isDigit || c == '.'

/-- The compiled Step pattern
`Step\s+(\d+)\s+\|\s+(accept|reject)\s+\|\s+log_alpha=([-\d\.]+)` applied
with `re.match` (anchored at the start, trailing text allowed).  Returns the
step index, the status and the raw `log_alpha` text. -/
def matchStep (line : List Char) : Option (Nat × Status × List Char) := do
  let s1 ← matchLit ("Step".data) line
  let s2 ← matchWs1 s1
  let (ds, s3) ← matchDigits1 s2
  let s4 ← matchWs1 s3
  let s5 ← matchLit ("|".data) s4
  let s6 ← matchWs1 s5
  let (st, s7) ← matchStatus s6
  let s8 ← matchWs1 s7
  let s9 ← matchLit ("|".data) s8
  let s10 ← matchWs1 s9
  let s11 ← matchLit ("log_alpha=".data) s10
  let av := s11.takeWhile isAlphaFieldChar
  if av = [] then none else some (digitsToNat ds, st, av)

/-- The open round being accumulated by `parse_log`: its `Init:` text and its
steps in reverse append order.  The source's "current step" variable, when
not `None`, always aliases the most recently appended step dict of the open
round (the head of `stepsRev` here); it is `None` exactly when no step has
been appended since the last `Init:`, i.e. when `stepsRev` is empty. -/
structure CurRound where
  init : String
  stepsRev : List Step
  deriving DecidableEq

/-- State of the `parse_log` loop: finalized rounds plus the open round. -/
structure LogState where
  acc : List Round
  cur : Option CurRound
  deriving DecidableEq

/-- Finalize an open round. -/
def CurRound.toRound (c : CurRound) : Round := ⟨c.init, c.stepsRev.reverse⟩

/-- `if current: rounds.append(current)` (the dict is always non-empty, hence
always truthy). -/
def closeCur : Option CurRound → List Round
  | none => []
  | some c => [c.toRound]

/-- Update the current step (the head of `stepsRev`); `none` models the
`TypeError` Python raises when the current step is `None`. -/
def setLastStep (st : LogState) (f : Step → Step) : Option LogState :=
  match st.cur with
  | none => none
  | some c =>
      match c.stepsRev with
      | [] => none
      | s :: rest => some ⟨st.acc, some ⟨c.init, f s :: rest⟩⟩

/-- One iteration of the `parse_log` loop: strip the raw line, skip blanks,
`Init: ` finalizes the open round and opens a new one, a Step-pattern match
appends a fresh step (`none` models the `ValueError` of `float()` on a
non-numeric capture, and the `TypeError` of `current["steps"]` when no
`Init:` has been seen), the three field prefixes update the current step
(`none` models the `TypeError` when there is none), anything else is
silently ignored. -/
def procLine (st : LogState) (raw : String) : Option LogState :=
  let line := pyStripL raw.data
  if line = [] then some st
  else if ("Init: ".data).isPrefixOf line then
    some ⟨st.acc ++ closeCur st.cur, some ⟨String.mk (line.drop 6), []⟩⟩
  else
    match matchStep line with
    | some (idx, status, av) =>
        match pyFloatQ av with
        | none => none
        | some a =>
            match st.cur with
            | none => none
            | some c =>
                some ⟨st.acc, some ⟨c.init, ⟨idx, status, a, none, none, none⟩ :: c.stepsRev⟩⟩
    | none =>
        if ("Sever path: ".data).isPrefixOf line then
          setLastStep st (fun s => { s with sever_path := some (String.mk (pyStripL (line.drop 12))) })
        else if ("Before: ".data).isPrefixOf line then
          setLastStep st (fun s => { s with before := some (String.mk (pyStripL (line.drop 8))) })
        else if ("After : ".data).isPrefixOf line then
          setLastStep st (fun s => { s with after := some (String.mk (pyStripL (line.drop 8))) })
        else some st

/-- The `parse_log` loop over the remaining lines, then finalize. -/
def parseLogAux (st : LogState) : List String → Option (List Round)
  | [] => some (st.acc ++ closeCur st.cur)
  | l :: ls =>
      match procLine st l with
      | none => none
      | some st2 => parseLogAux st2 ls

/-- `parse_log` over the log's lines; `none` models a raised exception. -/
def parseLog (lines : List String) : Option (List Round) :=
  parseLogAux ⟨[], none⟩ lines

/-- Does the stripped line carry the `Init: ` prefix? -/
def isInitLine (raw : String) : Bool :=
  ("Init: ".data).isPrefixOf (pyStripL raw.data)

/-- Does the stripped line match the Step pattern (a well-formed Step
header)? -/
def isStepHeaderLine (raw : String) : Bool :=
  (matchStep (pyStripL raw.data)).isSome

/-- Per-round step counts read directly off the raw lines: at each `Init:`
line start a new count (emitting the previous one), increment the open count
at each line matching the Step pattern, and emit the open count at end of
input. -/
def countsAux (cur : Option Nat) : List String → List Nat
  | [] => match cur with | none => [] | some n => [n]
  | l :: ls =>
      if isInitLine l then
        match cur with
        | none => countsAux (some 0) ls
        | some n => n :: countsAux (some 0) ls
      else if isStepHeaderLine l then countsAux (cur.map (fun n => n + 1)) ls
      else countsAux cur ls

/-- Sufficient conditions for `parse_log` to finish without raising, tracked
by two flags: `hasRound` (an `Init:` line has been seen) and `hasStep` (a
step has been appended to the open round): every Step header needs an open
round and a numerically valid `log_alpha`, every field line needs a current
step. -/
def goodAux (hasRound hasStep : Bool) : List String → Bool
  | [] => true
  | l :: ls =>
      let line := pyStripL l.data
      if line = [] then goodAux hasRound hasStep ls
      else if ("Init: ".data).isPrefixOf line then goodAux true false ls
      else
        match matchStep line with
        | some x => (pyFloatQ x.2.2).isSome && hasRound && goodAux true true ls
        | none =>
            if ("Sever path: ".data).isPrefixOf line ||
               ("Before: ".data).isPrefixOf line ||
               ("After : ".data).isPrefixOf line then
              hasStep && goodAux hasRound hasStep ls
            else goodAux hasRound hasStep ls

/-- A line `parse_log` silently skips: blank after stripping, or matching
none of the recognized prefixes and not the Step pattern. -/
def isIgnoredLine (raw : String) : Bool :=
  let line := pyStripL raw.data
  line.isEmpty ||
    (!("Init: ".data).isPrefixOf line &&
     !(matchStep line).isSome &&
     !("Sever path: ".data).isPrefixOf line &&
     !("Before: ".data).isPrefixOf line &&
     !("After : ".data).isPrefixOf line)

/-- `sorted(r["steps"], key=lambda item: item["idx"])`: Python's `sorted` is
a stable comparison sort on the key, and every stable sort by the same key
computes the same list; `List.insertionSort` is a stable comparison sort
(elements are inserted before the first strictly-later-keyed element,
keeping equal keys in input order), so the two agree on all inputs. -/
def sortSteps (l : List Step) : List Step :=
  l.insertionSort (fun a b => a.idx ≤ b.idx)

/-- `min(all_scores), max(all_scores)` (source lines 139-140); `none` models
the `ValueError` Python's `min` raises on an empty sequence. -/
def scoreRange : List ℚ → Option (ℚ × ℚ)
  | [] => none
  | q :: qs => some (qs.foldl min q, qs.foldl max q)

/-- The padded y-limits (source lines 141-142): 10 percent padding of the
range on each side, or unit padding when the range is degenerate. -/
def yLimitsOf (ymin ymax : ℚ) : ℚ × ℚ :=
  let pad := if ymin < ymax then (ymax - ymin) * (1 / 10) else 1
  (ymin - pad, ymax + pad)

/-- The per-step loop of `visualize_log_run` restricted to its observable
core: parse the `before` and `after` texts (`none` models the `KeyError`
when the field was never set, and the parser's `IndexError`), and while the
chain has fewer than 5 entries append the after tree if the step was
accepted, otherwise the before tree, paired with the step's score.  Returns
the final chain. -/
def stepLoop : List (KernelNode × Option ℚ) → List Step → Option (List (KernelNode × Option ℚ))
  | chain, [] => some chain
  | chain, st :: rest =>
      match st.before with
      | none => none
      | some bs =>
          match parseKernelExpr bs with
          | none => none
          | some bk =>
              match st.after with
              | none => none
              | some afs =>
                  match parseKernelExpr afs with
                  | none => none
                  | some ak =>
                      let chain2 :=
                        if chain.length < 5 then
                          chain ++ [(if st.status = Status.accept then ak else bk,
                                     some st.log_alpha)]
                        else chain
                      stepLoop chain2 rest

/-- The observable per-round outcome of `visualize_log_run`: the stable
y-limits, the chain entries (tree plus optional score), whether the chain
render is requested (at least two entries) and whether the round animation
is requested (at least one step produced a frame). -/
structure Plan where
  yLimits : ℚ × ℚ
  chain : List (KernelNode × Option ℚ)
  chainCall : Bool
  animation : Bool
  deriving DecidableEq

/-- Per-round orchestration of `visualize_log_run` (source lines 137-233),
in source order: sort the steps by index, compute the score range over all
steps (raising on an empty round), parse the initial kernel, run the
per-step loop seeded with the initial kernel (no score), then record the
chain-render and animation conditions.  `none` models any raised
exception. -/
def roundPlan (r : Round) : Option Plan :=
  let ss := sortSteps r.steps
  match scoreRange (ss.map (fun st => st.log_alpha)) with
  | none => none
  | some mm =>
      match parseKernelExpr r.init with
      | none => none
      | some initK =>
          match stepLoop [(initK, none)] ss with
          | none => none
          | some chain =>
              some ⟨yLimitsOf mm.1 mm.2, chain, decide (2 ≤ chain.length), decide (ss ≠ [])⟩

/-- The chain entry contributed by a step, as a standalone function (used to
state the chain characterization): the after tree if accepted else the
before tree, paired with the step's score.  The placeholder defaults are
unreachable whenever the per-step loop succeeded. -/
def chainEntryOf (st : Step) : KernelNode × Option ℚ :=
  (((if st.status = Status.accept then st.after else st.before).bind
      (fun s => parseKernelExpr s)).getD (KernelNode.leaf "?"),
   some st.log_alpha)

/-- No placeholder (`"X"` or `"?"`) leaves: the precondition of the
round-trip claim as stated. -/
def noPlaceholders : KernelNode → Bool
  | .leaf n => !(n == "X") && !(n == "?")
  | .node _ l r => noPlaceholders l && noPlaceholders r

/-- Characters allowed in a leaf name for the round-trip property: not
whitespace, not a token delimiter, not a square bracket (adjacent square
brackets are highlight markers). -/
def goodNameChar (c : Char) : Bool :=
  !pyIsSpace c && !(c == '(') && !(c == ')') && !(c == '+') && !(c == '*') &&
    !(c == '[') && !(c == ']')

/-- A leaf name that parses back as one token: non-empty and made of allowed
characters. -/
def goodName (s : String) : Bool :=
  !s.data.isEmpty && s.data.all goodNameChar

/-- Trees whose textual form round-trips: every leaf name is a good token
and every operator is a non-whitespace, non-square-bracket character. -/
def goodTree : KernelNode → Bool
  | .leaf n => goodName n
  | .node op l r =>
      !pyIsSpace op && !(op == '[') && !(op == ']') && goodTree l && goodTree r

/-- Does the list contain two adjacent copies of `c` (an occurrence of the
doubled two-character pattern)? -/
def hasDouble (c : Char) : List Char → Bool
  | [] => false
  | [_] => false
  | a :: b :: rest => (a == c && b == c) || hasDouble c (b :: rest)

/-! ### Parser meta-theory: suffix bounds, fuel irrelevance, unfold rule -/

theorem dropWhileLenLe (p : Char → Bool) : ∀ l : List Char, (l.dropWhile p).length ≤ l.length := by
  intro l
  induction l with
  | nil => simp
  | cons a l ih =>
      by_cases h : p a
      · simp [List.dropWhile_cons, h]; omega
      · simp [List.dropWhile_cons, h]

theorem parenSpanAppend : ∀ (s : List Char) (d : Nat), (parenSpan d s).1 ++ (parenSpan d s).2 = s := by
  intro s
  induction s with
  | nil => intro d; simp [parenSpan]
  | cons c rest ih =>
      intro d
      by_cases h1 : c = '('
      · simp [parenSpan, h1, ih]
      · by_cases h2 : c = ')'
        · by_cases h3 : d = 1
          · simp [parenSpan, h1, h2, h3]
          · simp [parenSpan, h1, h2, h3, ih]
        · simp [parenSpan, h1, h2, ih]

theorem parenSpanRestLe (s : List Char) (d : Nat) : (parenSpan d s).2.length ≤ s.length := by
  have h := parenSpanAppend s d
  have := congrArg List.length h
  simp [List.length_append] at this
  omega

theorem parseBaseRestLe (s : List Char) : (parseBase s).2.length ≤ s.length := by
  have hd : ∀ n, (s.drop n).length ≤ s.length := fun n => by simp [List.length_drop]
  simp only [parseBase]
  split
  · exact le_trans (parenSpanRestLe _ _) (hd _)
  · split
    · exact hd _
    · exact hd _

theorem dropWhileConsLen {p : Char → Bool} {s rest : List Char} {c : Char}
    (h : s.dropWhile p = c :: rest) : rest.length < s.length := by
  have h2 := dropWhileLenLe p s
  rw [h] at h2
  simp at h2
  omega

theorem isSomeGetD {α : Type} (o : Option α) (d : α) (h : o.isSome) : o = some (o.getD d) := by
  cases o
  · simp at h
  · simp

theorem parseExprFRestLe : ∀ (f : Nat) (s : List Char) (t : KernelNode) (r : List Char),
    parseExprF f s = some (PRes.ok t r) → r.length ≤ s.length := by
  intro f
  induction f with
  | zero => intro s t r h; simp [parseExprF] at h
  | succ g ih =>
      intro s t r h
      rw [parseExprF] at h
      split at h
      · simp at h
        obtain ⟨h1, h2⟩ := h
        subst h2
        simp
      · rename_i c rest hd
        have hrest : rest.length < s.length := dropWhileConsLen hd
        split at h
        · split at h
          · exact absurd h (by simp)
          · exact absurd h (by simp)
          · rename_i l s2 h1
            have hs2 : s2.length ≤ rest.length := ih rest l s2 h1
            split at h
            · exact absurd h (by simp)
            · rename_i op s4 hd2
              have hs4 : s4.length < s2.length := dropWhileConsLen hd2
              split at h
              · exact absurd h (by simp)
              · exact absurd h (by simp)
              · rename_i r2 s5 h2
                have hs5 : s5.length ≤ s4.length := ih s4 r2 s5 h2
                have hs6 := dropWhileLenLe pyIsSpace s5
                split at h
                · rename_i s7 hd3
                  rw [hd3] at hs6
                  simp at h hs6
                  obtain ⟨h1a, h2a⟩ := h
                  subst h2a
                  omega
                · rename_i hne
                  simp at h
                  obtain ⟨h1a, h2a⟩ := h
                  subst h2a
                  omega
        · simp at h
          obtain ⟨h1a, h2a⟩ := h
          subst h2a
          have := parseBaseRestLe (c :: rest)
          simp at this
          omega

theorem parseExprFIsSome : ∀ (f : Nat) (s : List Char), s.length < f → (parseExprF f s).isSome := by
  intro f
  induction f with
  | zero => intro s h; omega
  | succ g ih =>
      intro s h
      rw [parseExprF]
      split
      · simp
      · rename_i c rest hd
        have hrest : rest.length < s.length := dropWhileConsLen hd
        split
        · split
          · rename_i h1
            have := ih rest (by omega)
            rw [h1] at this
            simp at this
          · simp
          · rename_i l s2 h1
            have hs2 : s2.length ≤ rest.length := parseExprFRestLe g rest l s2 h1
            split
            · simp
            · rename_i op s4 hd2
              have hs4 : s4.length < s2.length := dropWhileConsLen hd2
              split
              · rename_i h2
                have := ih s4 (by omega)
                rw [h2] at this
                simp at this
              · simp
              · rename_i r2 s5 h2
                split
                · simp
                · simp
        · simp

theorem parseExprFCongr : ∀ (f1 f2 : Nat) (s : List Char),
    s.length < f1 → s.length < f2 → parseExprF f1 s = parseExprF f2 s := by
  intro f1
  induction f1 with
  | zero => intro f2 s h1 h2; omega
  | succ g1 ih =>
      intro f2 s h1 h2
      cases f2 with
      | zero => omega
      | succ g2 =>
          rw [parseExprF]
          conv_rhs => rw [parseExprF]
          split
          · rfl
          · rename_i c rest hd
            have hrest : rest.length < s.length := dropWhileConsLen hd
            rw [ih g2 rest (by omega) (by omega)]
            split
            · cases h3 : parseExprF g2 rest with
              | none => rfl
              | some x =>
                  cases x with
                  | err => rfl
                  | ok l s2 =>
                      have hs2 : s2.length ≤ rest.length := parseExprFRestLe g2 rest l s2 h3
                      split
                      · rename_i heq
                        simp at heq
                      · rename_i heq
                        simp at heq
                      · rename_i l2 s2b heq
                        simp at heq
                        obtain ⟨hl, hs⟩ := heq
                        subst hl
                        subst hs
                        cases hd2 : s2.dropWhile pyIsSpace with
                        | nil => rfl
                        | cons op s4 =>
                            have hs4 : s4.length < s2.length := dropWhileConsLen hd2
                            split
                            · rename_i heq
                              simp at heq
                            · rename_i op2 s4b heq
                              simp at heq
                              obtain ⟨ho, hs⟩ := heq
                              subst ho
                              subst hs
                              rw [ih g2 s4 (by omega) (by omega)]
            · rfl

theorem parseExprTopSome (s : List Char) : parseExprF (s.length + 1) s = some (parseExprTop s) :=
  isSomeGetD _ _ (parseExprFIsSome _ _ (by omega))

theorem parseExprFEqTop (f : Nat) (s : List Char) (h : s.length < f) :
    parseExprF f s = some (parseExprTop s) := by
  rw [parseExprFCongr f (s.length + 1) s h (by omega)]
  exact parseExprTopSome s

theorem parseExprTopRestLe (s : List Char) (t : KernelNode) (r : List Char)
    (h : parseExprTop s = PRes.ok t r) : r.length ≤ s.length := by
  apply parseExprFRestLe (s.length + 1) s t r
  rw [parseExprTopSome s, h]

theorem parseExprTopEq (s : List Char) :
    parseExprTop s =
      match s.dropWhile pyIsSpace with
      | [] => PRes.ok (KernelNode.leaf "?") []
      | c :: rest =>
          if c = '(' then
            match parseExprTop rest with
            | PRes.err => PRes.err
            | PRes.ok l s2 =>
                match s2.dropWhile pyIsSpace with
                | [] => PRes.err
                | op :: s4 =>
                    match parseExprTop s4 with
                    | PRes.err => PRes.err
                    | PRes.ok r s5 =>
                        match s5.dropWhile pyIsSpace with
                        | ')' :: s7 => PRes.ok (KernelNode.node op l r) s7
                        | s6 => PRes.ok (KernelNode.node op l r) s6
          else PRes.ok (parseBase (c :: rest)).1 (parseBase (c :: rest)).2 := by
  have hL : parseExprTop s = (parseExprF (s.length + 1) s).getD PRes.err := rfl
  rw [hL, parseExprF]
  split
  · rfl
  · rename_i c rest hd
    have hrest : rest.length < s.length := dropWhileConsLen hd
    by_cases hc : c = '('
    · simp only [if_pos hc]
      simp only [parseExprFEqTop s.length rest (by omega)]
      cases hpt : parseExprTop rest with
      | err => rfl
      | ok l s2 =>
          have hfr : parseExprF s.length rest = some (PRes.ok l s2) := by
            rw [parseExprFEqTop s.length rest (by omega), hpt]
          have hs2 : s2.length ≤ rest.length := parseExprFRestLe _ _ _ _ hfr
          cases hd2 : s2.dropWhile pyIsSpace with
          | nil => simp only [hd2]; rfl
          | cons op s4 =>
              have hs4 : s4.length < s2.length := dropWhileConsLen hd2
              simp only [hd2]
              simp only [parseExprFEqTop s.length s4 (by omega)]
              cases hpt2 : parseExprTop s4 with
              | err => rfl
              | ok r s5 =>
                  cases hd3 : s5.dropWhile pyIsSpace with
                  | nil => simp only [hd3]; rfl
                  | cons c2 s7 =>
                      simp only [hd3]
                      split
                      · rfl
                      · rfl
    · simp only [if_neg hc]
      rfl

/-! ### Claim C1 -/

/-- C1: the claim states that `parse_kernel_expr` returns a tree for every
input string without raising, with malformed input such as `"("` or `"(A"`
degrading to a placeholder leaf.  The code contradicts this: the unguarded
operator read `op = s[i]` in `_parse_expr` raises `IndexError` whenever the
input ends right after the left sub-expression of a parenthesized form.
This theorem evaluates the embedded code at the two failing inputs named by
the claim (`none` is the raised `IndexError`); the well-formed scenario
from the specification still parses. -/
theorem claim_C1_code_bug_eval :
    parseKernelExpr "(" = none ∧ parseKernelExpr "(A" = none ∧
      parseKernelExpr "(RBF1 + PER2)" =
        some (KernelNode.node '+' (KernelNode.leaf "RBF1") (KernelNode.leaf "PER2")) :=
  ⟨rfl, rfl, rfl⟩

/-! ### Claim C3 -/

/-- C3 counterexample: the claim states that parsing the empty string yields
a placeholder leaf named exactly `"X"`; it does not (the empty input takes
the end-of-input branch of `_parse_expr`, whose placeholder is `"?"`). -/
theorem claim_C3_counterexample :
    parseKernelExpr "" ≠ some (KernelNode.leaf "X") := by
  decide

/-- C3 amended: parsing the empty string with `parse_kernel_expr` yields a
single placeholder leaf whose name is exactly `"?"` (the end-of-input
placeholder; the `"X"` placeholder is produced only for an empty token at a
delimiter, e.g. for input `")"`). -/
theorem claim_C3_amended :
    parseKernelExpr "" = some (KernelNode.leaf "?") ∧
      parseKernelExpr ")" = some (KernelNode.leaf "X") :=
  ⟨rfl, rfl⟩

/-! ### Claim C4 -/

theorem specResolveLeafCons (name : String) (c : Char) (p : List Char) :
    specResolve (KernelNode.leaf name) (c :: p) = none := rfl

theorem phantomNodeCons (op : Char) (l r : KernelNode) (c : Char) (p2 : List Char) :
    (∃ q d, c :: p2 = q ++ [d] ∧ (d = 'L' ∨ d = 'R') ∧
        ∃ n, specResolve (KernelNode.node op l r) q = some (KernelNode.leaf n)) ↔
      (∃ q d, p2 = q ++ [d] ∧ (d = 'L' ∨ d = 'R') ∧
        ∃ n, specResolve (KernelNode.node op l r) (c :: q) = some (KernelNode.leaf n)) := by
  constructor
  · rintro ⟨q, d, heq, hd, n, hres⟩
    cases q with
    | nil =>
        simp [specResolve] at hres
    | cons c2 q2 =>
        simp only [List.cons_append, List.cons.injEq] at heq
        obtain ⟨rfl, hp2⟩ := heq
        exact ⟨q2, d, hp2, hd, n, hres⟩
  · rintro ⟨q2, d, hp2, hd, n, hres⟩
    exact ⟨c :: q2, d, by simp [hp2], hd, n, hres⟩

theorem nodePathsMemIff (t : KernelNode) : ∀ (p : List Char),
    p ∈ nodePaths t ↔
      (specResolve t p).isSome ∨
        (∃ q d, p = q ++ [d] ∧ (d = 'L' ∨ d = 'R') ∧
          ∃ n, specResolve t q = some (KernelNode.leaf n)) := by
  induction t with
  | leaf name =>
      intro p
      simp only [nodePaths, List.mem_cons, List.not_mem_nil, or_false]
      constructor
      · rintro (rfl | rfl | rfl)
        · left; simp [specResolve]
        · right
          exact ⟨[], 'L', rfl, Or.inl rfl, name, rfl⟩
        · right
          exact ⟨[], 'R', rfl, Or.inr rfl, name, rfl⟩
      · rintro (h | ⟨q, d, rfl, hd, n, hres⟩)
        · cases p with
          | nil => exact Or.inl rfl
          | cons c p2 => simp [specResolve] at h
        · cases q with
          | nil =>
              rcases hd with rfl | rfl
              · exact Or.inr (Or.inl rfl)
              · exact Or.inr (Or.inr rfl)
          | cons c q2 => simp [specResolve] at hres
  | node op l r ihl ihr =>
      intro p
      cases p with
      | nil =>
          simp [nodePaths, specResolve]
      | cons c p2 =>
          have hmem : (c :: p2) ∈ nodePaths (KernelNode.node op l r) ↔
              (c = 'L' ∧ p2 ∈ nodePaths l) ∨ (c = 'R' ∧ p2 ∈ nodePaths r) := by
            simp only [nodePaths, List.mem_cons, List.mem_append, List.mem_map]
            constructor
            · rintro (h | ⟨a, ha, heq⟩ | ⟨a, ha, heq⟩)
              · exact absurd h (by simp)
              · obtain ⟨rfl, rfl⟩ : 'L' = c ∧ a = p2 := by
                  injection heq with h1 h2
                  exact ⟨h1, h2⟩
                exact Or.inl ⟨rfl, ha⟩
              · obtain ⟨rfl, rfl⟩ : 'R' = c ∧ a = p2 := by
                  injection heq with h1 h2
                  exact ⟨h1, h2⟩
                exact Or.inr ⟨rfl, ha⟩
            · rintro (⟨rfl, hmem⟩ | ⟨rfl, hmem⟩)
              · exact Or.inr (Or.inl ⟨p2, hmem, rfl⟩)
              · exact Or.inr (Or.inr ⟨p2, hmem, rfl⟩)
          rw [hmem, phantomNodeCons]
          by_cases hcL : c = 'L'
          · subst hcL
            have hres : specResolve (KernelNode.node op l r) ('L' :: p2) = specResolve l p2 := by
              simp [specResolve]
            have hresq : ∀ q : List Char,
                specResolve (KernelNode.node op l r) ('L' :: q) = specResolve l q := by
              intro q; simp [specResolve]
            rw [hres]
            simp only [hresq]
            rw [← ihl p2]
            simp
          · by_cases hcR : c = 'R'
            · subst hcR
              have hres : specResolve (KernelNode.node op l r) ('R' :: p2) = specResolve r p2 := by
                simp [specResolve, (by decide : ('R' : Char) ≠ 'L')]
              have hresq : ∀ q : List Char,
                  specResolve (KernelNode.node op l r) ('R' :: q) = specResolve r q := by
                intro q; simp [specResolve, (by decide : ('R' : Char) ≠ 'L')]
              rw [hres]
              simp only [hresq]
              rw [← ihr p2]
              simp
            · have hres : specResolve (KernelNode.node op l r) (c :: p2) = none := by
                simp [specResolve, hcL, hcR]
              have hresq : ∀ q : List Char,
                  specResolve (KernelNode.node op l r) (c :: q) = none := by
                intro q; simp [specResolve, hcL, hcR]
              rw [hres]
              simp only [hresq]
              simp [hcL, hcR]

/-- C4 counterexample: the claim states that resolving sever path `[L]`
against the single-leaf tree `RBF1` fails and that consequently no
cross-snapshot correlation edge is requested.  Spec-style resolution indeed
fails (first conjunct), but the rendering code enumerates phantom `None`
children under every leaf (duck-typed `_is_binary` is true for every
`KernelNode`), so path `[L]` is found in both snapshots and the edge IS
requested (second conjunct), falsifying the claim. -/
theorem claim_C4_counterexample :
    specResolve (KernelNode.leaf "RBF1") ['L'] = none ∧
      edgeRequested (KernelNode.leaf "RBF1") (KernelNode.leaf "PER1") (some ['L']) = true := by
  decide

/-- C4 amended: the mutation diff requests the correlation edge iff the sever
path occurs among the node paths enumerated for both snapshots (and never
without a sever path); a path is enumerated iff it resolves in the
specification's sense, or it extends a path resolving to a leaf by exactly
one `L`/`R` step (the leaf's phantom `None` child, rendered as a placeholder
box).  In particular `[L]` against a single-leaf tree does resolve to the
phantom child and the edge is requested; paths going deeper than one step
past a leaf fail on both readings, and no error is raised in any case. -/
theorem claim_C4_amended :
    ∀ (b a t : KernelNode) (p : List Char),
      (edgeRequested b a (some p) = true ↔ p ∈ nodePaths b ∧ p ∈ nodePaths a) ∧
      edgeRequested b a none = false ∧
      (p ∈ nodePaths t ↔
        (specResolve t p).isSome ∨
          (∃ q d, p = q ++ [d] ∧ (d = 'L' ∨ d = 'R') ∧
            ∃ n, specResolve t q = some (KernelNode.leaf n))) := by
  intro b a t p
  refine ⟨?_, rfl, nodePathsMemIff t p⟩
  simp [edgeRequested, List.elem_iff]

/-! ### Claim C10 -/

theorem pyStripLEq (l : List Char) :
    pyStripL l = List.rdropWhile pyIsSpace (l.dropWhile pyIsSpace) := rfl

theorem dropWhileSelfHead {p : Char → Bool} {x : List Char} {b : Char} {m : List Char}
    (hx : x.dropWhile p = x) (hcons : x = b :: m) : p b = false := by
  subst hcons
  rw [List.dropWhile_cons] at hx
  by_cases hb : p b = true
  · rw [if_pos hb] at hx
    have h1 := dropWhileLenLe p m
    have h2 := congrArg List.length hx
    simp at h2
    omega
  · simpa using hb

theorem dropWhileStripSelf (l : List Char) :
    (pyStripL l).dropWhile pyIsSpace = pyStripL l := by
  rw [pyStripLEq]
  have hAdrop : (l.dropWhile pyIsSpace).dropWhile pyIsSpace = l.dropWhile pyIsSpace :=
    List.dropWhile_idempotent _ _
  obtain ⟨t, ht⟩ := List.rdropWhile_prefix pyIsSpace (l.dropWhile pyIsSpace)
  cases hB : List.rdropWhile pyIsSpace (l.dropWhile pyIsSpace) with
  | nil => simp
  | cons b m =>
      rw [hB] at ht
      have hx : l.dropWhile pyIsSpace = b :: (m ++ t) := by rw [← ht]; simp
      have hb : pyIsSpace b = false := dropWhileSelfHead hAdrop hx
      rw [List.dropWhile_cons, hb]
      simp

theorem stripIdem (l : List Char) : pyStripL (pyStripL l) = pyStripL l := by
  rw [pyStripLEq (pyStripL l), dropWhileStripSelf, pyStripLEq l,
    List.rdropWhile_idempotent]

theorem removeDoubleNoOp (c : Char) : ∀ l : List Char, hasDouble c l = false → removeDouble c l = l := by
  intro l
  induction l with
  | nil => intro _; rfl
  | cons a m ih =>
      cases m with
      | nil => intro _; rfl
      | cons b m2 =>
          intro h
          simp only [hasDouble, Bool.or_eq_false_iff, Bool.and_eq_false_iff] at h
          obtain ⟨h1, h2⟩ := h
          rw [removeDouble, if_neg, ih h2]
          rintro ⟨rfl, rfl⟩
          simp at h1

/-- C10 counterexample: the claim states that for every string, parsing is
unchanged by first deleting the `[[` / `]]` marker pairs and stripping (the
very transformation `_strip_highlight` performs).  It fails on `"[]]["`:
there deleting `]]` creates a fresh `[[`, so the cleaned string `"[["`
cleans further to `""` on the second pass — the original parses to the leaf
`[[` while the cleaned string parses to the placeholder leaf `?`. -/
theorem claim_C10_counterexample :
    stripHighlightS "[]][" = "[[" ∧
      parseKernelExpr "[]][" ≠ parseKernelExpr (stripHighlightS "[]][") := by
  constructor
  · rfl
  · decide

/-- C10 amended: highlight deletion and surrounding whitespace never affect
the parse PROVIDED the cleaned string contains no leftover adjacent `[[` or
`]]` pair (deletion can create new marker pairs, as the counterexample
shows): under that condition `parse_kernel_expr(s)` equals
`parse_kernel_expr` of the cleaned string. -/
theorem claim_C10_amended (s : String)
    (h1 : hasDouble '[' (stripHighlight s.data) = false)
    (h2 : hasDouble ']' (stripHighlight s.data) = false) :
    parseKernelExpr s = parseKernelExpr (stripHighlightS s) := by
  have hdata : (stripHighlightS s).data = stripHighlight s.data := rfl
  have hfix : stripHighlight (stripHighlight s.data) = stripHighlight s.data := by
    show pyStripL (removeDouble ']' (removeDouble '[' (stripHighlight s.data))) =
      stripHighlight s.data
    rw [removeDoubleNoOp '[' _ h1, removeDoubleNoOp ']' _ h2]
    show pyStripL (pyStripL (removeDouble ']' (removeDouble '[' s.data))) = _
    rw [stripIdem]
    rfl
  unfold parseKernelExpr
  rw [hdata, hfix]

/-- C10 witness: the amended theorem applied to the ordinary highlighted
token `[[RBF1]]`, whose cleaned form `RBF1` has no leftover markers. -/
theorem claim_C10_witness :
    hasDouble '[' (stripHighlight ("[[RBF1]]").data) = false ∧
      hasDouble ']' (stripHighlight ("[[RBF1]]").data) = false ∧
      parseKernelExpr "[[RBF1]]" = parseKernelExpr (stripHighlightS "[[RBF1]]") :=
  ⟨by decide, by decide, claim_C10_amended "[[RBF1]]" (by decide) (by decide)⟩

/-! ### Claim C9 -/

theorem takeWhileAppendAllTrue (p : Char → Bool) :
    ∀ (xs ys : List Char), (∀ c ∈ xs, p c = true) →
      (xs ++ ys).takeWhile p = xs ++ ys.takeWhile p := by
  intro xs
  induction xs with
  | nil => intro ys _; simp
  | cons a m ih =>
      intro ys h
      have ha : p a = true := h a (List.mem_cons_self a m)
      simp only [List.cons_append, List.takeWhile_cons, ha, if_pos]
      rw [ih ys (fun c hc => h c (List.mem_cons_of_mem a hc))]

theorem stripSelfOfNotWsMem (l : List Char) (h : ∀ c ∈ l, pyIsSpace c = false) :
    pyStripL l = l := by
  rw [pyStripLEq]
  have hdw : l.dropWhile pyIsSpace = l := by
    cases l with
    | nil => rfl
    | cons a m =>
        rw [List.dropWhile_cons, h a (List.mem_cons_self a m)]
        simp
  rw [hdw]
  apply List.rdropWhile_eq_self_iff.mpr
  intro hl
  rw [h _ (List.getLast_mem hl)]
  simp

theorem goodNameCharNotStop {c : Char} (h : goodNameChar c = true) :
    (!isTokStop c) = true := by
  simp only [goodNameChar, Bool.and_eq_true, Bool.not_eq_true'] at h
  obtain ⟨⟨⟨⟨⟨⟨hws, h1⟩, h2⟩, h3⟩, h4⟩, h5⟩, h6⟩ := h
  simp only [isTokStop, Bool.not_eq_true', Bool.or_eq_false_iff]
  refine ⟨⟨⟨⟨?_, h2⟩, h3⟩, h4⟩, h1⟩
  have hne : c ≠ ' ' := by
    intro hsp
    rw [hsp] at hws
    simp [pyIsSpace] at hws
  simpa using hne

theorem goodNameCharNotWs {c : Char} (h : goodNameChar c = true) :
    pyIsSpace c = false := by
  simp only [goodNameChar, Bool.and_eq_true, Bool.not_eq_true'] at h
  exact h.1.1.1.1.1.1

theorem parseBaseGood (n rest : List Char)
    (hne : n ≠ []) (hall : ∀ c ∈ n, goodNameChar c = true)
    (hrest : rest = [] ∨ ∃ m, rest = ' ' :: m ∨ rest = ')' :: m) :
    parseBase (n ++ rest) = (KernelNode.leaf (String.mk n), rest) := by
  have htw : (n ++ rest).takeWhile (fun c => !isTokStop c) = n := by
    rw [takeWhileAppendAllTrue _ _ _ (fun c hc => goodNameCharNotStop (hall c hc))]
    rcases hrest with rfl | ⟨m, rfl | rfl⟩
    · simp
    · simp [List.takeWhile_cons, isTokStop]
    · simp [List.takeWhile_cons, isTokStop]
  have hstrip : pyStripL n = n :=
    stripSelfOfNotWsMem n (fun c hc => goodNameCharNotWs (hall c hc))
  have hhead : rest.head? ≠ some '(' := by
    rcases hrest with rfl | ⟨m, rfl | rfl⟩ <;> simp
  simp only [parseBase, htw, List.drop_left, hstrip]
  rw [if_neg hhead, if_neg hne]

theorem stringNeData {n : String} (h : n ≠ "") : n.data ≠ [] := by
  intro hd
  exact h (String.ext hd)

theorem prettyLeaf (n : String) (h : n ≠ "") : (KernelNode.leaf n).pretty = n := by
  simp [KernelNode.pretty, h]

theorem prettyNodeData (op : Char) (l r : KernelNode) :
    ((KernelNode.node op l r).pretty).data =
      '(' :: ((l.pretty).data ++ ' ' :: op :: ' ' :: ((r.pretty).data ++ [')'])) := by
  show ("(" ++ l.pretty ++ " " ++ String.singleton op ++ " " ++ r.pretty ++ ")").data = _
  simp [String.data_append]

theorem goodTreeNode {op : Char} {l r : KernelNode}
    (h : goodTree (KernelNode.node op l r) = true) :
    pyIsSpace op = false ∧ (op == '[') = false ∧ (op == ']') = false ∧
      goodTree l = true ∧ goodTree r = true := by
  simp only [goodTree, Bool.and_eq_true, Bool.not_eq_true'] at h
  exact ⟨h.1.1.1.1, h.1.1.1.2, h.1.1.2, h.1.2, h.2⟩

theorem goodTreeLeaf {n : String} (h : goodTree (KernelNode.leaf n) = true) :
    n.data ≠ [] ∧ ∀ c ∈ n.data, goodNameChar c = true := by
  simp only [goodTree, goodName, Bool.and_eq_true, Bool.not_eq_true',
    List.all_eq_true] at h
  refine ⟨?_, h.2⟩
  intro hd
  have h1 := h.1
  rw [hd] at h1
  simp at h1

theorem prettyHeadNotWs (t : KernelNode) (h : goodTree t = true) :
    ∃ c m, (t.pretty).data = c :: m ∧ pyIsSpace c = false ∧ (c = '(' → ∃ op l r, t = KernelNode.node op l r) := by
  cases t with
  | leaf n =>
      obtain ⟨hne, hall⟩ := goodTreeLeaf h
      have hne2 : n ≠ "" := by
        intro hd
        apply hne
        rw [hd]
      rw [prettyLeaf n hne2]
      cases hd : n.data with
      | nil => exact absurd hd hne
      | cons c m =>
          refine ⟨c, m, rfl, goodNameCharNotWs (hall c (by rw [hd]; exact List.mem_cons_self c m)), ?_⟩
          intro hc
          have := goodNameCharNotStop (hall c (by rw [hd]; exact List.mem_cons_self c m))
          rw [hc] at this
          simp [isTokStop] at this
  | node op l r =>
      rw [prettyNodeData]
      exact ⟨'(', _, rfl, by decide, fun _ => ⟨op, l, r, rfl⟩⟩

theorem prettyLastNotWs (t : KernelNode) (h : goodTree t = true) :
    ∀ c, (t.pretty).data.getLast? = some c → pyIsSpace c = false := by
  cases t with
  | leaf n =>
      obtain ⟨hne, hall⟩ := goodTreeLeaf h
      have hne2 : n ≠ "" := by
        intro hd
        apply hne
        rw [hd]
      rw [prettyLeaf n hne2]
      intro c hc
      rw [List.getLast?_eq_getLast n.data hne] at hc
      have hmem := List.getLast_mem hne
      injection hc with hc2
      rw [← hc2]
      exact goodNameCharNotWs (hall _ hmem)
  | node op l r =>
      rw [prettyNodeData]
      intro c hc
      have hshape : '(' :: ((l.pretty).data ++ ' ' :: op :: ' ' :: ((r.pretty).data ++ [')'])) =
          ('(' :: ((l.pretty).data ++ ' ' :: op :: ' ' :: (r.pretty).data)) ++ [')'] := by
        simp
      rw [hshape, List.getLast?_concat] at hc
      injection hc with hc2
      rw [← hc2]
      decide

theorem prettyMemNotBracket (t : KernelNode) (h : goodTree t = true) :
    ∀ a ∈ (t.pretty).data, (a == '[') = false ∧ (a == ']') = false := by
  induction t with
  | leaf n =>
      obtain ⟨hne, hall⟩ := goodTreeLeaf h
      have hne2 : n ≠ "" := by
        intro hd
        apply hne
        rw [hd]
      rw [prettyLeaf n hne2]
      intro a ha
      have := hall a ha
      simp only [goodNameChar, Bool.and_eq_true, Bool.not_eq_true'] at this
      exact ⟨this.1.2, this.2⟩
  | node op l r ihl ihr =>
      obtain ⟨hws, hbl, hbr, hgl, hgr⟩ := goodTreeNode h
      rw [prettyNodeData]
      intro a ha
      simp only [List.mem_cons, List.mem_append] at ha
      rcases ha with rfl | ha | ha
      · exact ⟨by decide, by decide⟩
      · exact ihl hgl a ha
      · rcases ha with rfl | ha
        · exact ⟨by decide, by decide⟩
        · rcases ha with rfl | ha
          · exact ⟨hbl, hbr⟩
          · rcases ha with rfl | ha
            · exact ⟨by decide, by decide⟩
            · rcases ha with ha | rfl | ha
              · exact ihr hgr a ha
              · exact ⟨by decide, by decide⟩
              · exact absurd ha (by simp)

theorem stripSelfOfEnds (l : List Char)
    (hh : ∀ c m, l = c :: m → pyIsSpace c = false)
    (hl : ∀ c, l.getLast? = some c → pyIsSpace c = false) :
    pyStripL l = l := by
  cases l with
  | nil => rfl
  | cons a m =>
      rw [pyStripLEq]
      rw [List.dropWhile_cons, hh a m rfl]
      simp only [Bool.false_eq_true, if_false]
      apply List.rdropWhile_eq_self_iff.mpr
      intro hne
      rw [hl _ (by rw [List.getLast?_eq_getLast _ hne])]
      simp

theorem removeDoubleNotMem (c : Char) :
    ∀ l : List Char, (∀ a ∈ l, (a == c) = false) → removeDouble c l = l := by
  intro l
  induction l with
  | nil => intro _; rfl
  | cons a m ih =>
      cases m with
      | nil => intro _; rfl
      | cons b m2 =>
          intro h
          rw [removeDouble, if_neg, ih (fun x hx => h x (List.mem_cons_of_mem a hx))]
          rintro ⟨rfl, _⟩
          have := h a (List.mem_cons_self a _)
          simp at this

theorem stripHighlightPretty (t : KernelNode) (h : goodTree t = true) :
    stripHighlight (t.pretty).data = (t.pretty).data := by
  unfold stripHighlight
  rw [removeDoubleNotMem '[' _ (fun a ha => (prettyMemNotBracket t h a ha).1),
    removeDoubleNotMem ']' _ (fun a ha => (prettyMemNotBracket t h a ha).2)]
  apply stripSelfOfEnds
  · intro c m hcm
    obtain ⟨c2, m2, heq, hws, _⟩ := prettyHeadNotWs t h
    rw [heq] at hcm
    injection hcm with h1 h2
    rw [← h1]
    exact hws
  · exact prettyLastNotWs t h

theorem parseExprTopWs (c : Char) (x : List Char) (hc : pyIsSpace c = true) :
    parseExprTop (c :: x) = parseExprTop x := by
  rw [parseExprTopEq (c :: x), parseExprTopEq x, List.dropWhile_cons, hc]
  simp only [if_true]

theorem roundTrip (t : KernelNode) (hg : goodTree t = true) :
    ∀ rest : List Char, (rest = [] ∨ ∃ m, rest = ' ' :: m ∨ rest = ')' :: m) →
      parseExprTop ((t.pretty).data ++ rest) = PRes.ok t rest := by
  induction t with
  | leaf n =>
      obtain ⟨hne, hall⟩ := goodTreeLeaf hg
      have hne2 : n ≠ "" := by
        intro hd
        apply hne
        rw [hd]
      rw [prettyLeaf n hne2]
      intro rest hrest
      rw [parseExprTopEq]
      cases hd : n.data with
      | nil => exact absurd hd hne
      | cons c m =>
          have hcg : goodNameChar c = true := hall c (by rw [hd]; exact List.mem_cons_self c m)
          have hdw : (((c :: m) ++ rest).dropWhile pyIsSpace) = c :: (m ++ rest) := by
            rw [List.cons_append, List.dropWhile_cons, goodNameCharNotWs hcg]
            exact if_neg Bool.false_ne_true
          have hcnp : ¬(c = '(') := by
            intro hcp
            have := goodNameCharNotStop hcg
            rw [hcp] at this
            simp [isTokStop] at this
          simp only [hdw]
          rw [if_neg hcnp]
          have hback : c :: (m ++ rest) = n.data ++ rest := by
            rw [hd]
            rfl
          rw [hback, parseBaseGood n.data rest hne hall hrest]
  | node op l r ihl ihr =>
      obtain ⟨hws, hbl, hbr, hgl, hgr⟩ := goodTreeNode hg
      intro rest hrest
      have heq : ((KernelNode.node op l r).pretty).data ++ rest =
          '(' :: ((l.pretty).data ++ (' ' :: op :: ' ' :: ((r.pretty).data ++ (')' :: rest)))) := by
        rw [prettyNodeData]
        simp [List.append_assoc]
      rw [heq, parseExprTopEq]
      have hdw : (('(' :: ((l.pretty).data ++ (' ' :: op :: ' ' :: ((r.pretty).data ++ (')' :: rest))))).dropWhile pyIsSpace) =
          '(' :: ((l.pretty).data ++ (' ' :: op :: ' ' :: ((r.pretty).data ++ (')' :: rest)))) := by
        rw [List.dropWhile_cons, (by decide : pyIsSpace '(' = false)]
        simp
      simp only [hdw]
      simp only [if_true]
      rw [ihl hgl (' ' :: op :: ' ' :: ((r.pretty).data ++ (')' :: rest))) (Or.inr ⟨_, Or.inl rfl⟩)]
      have hdw2 : ((' ' :: op :: ' ' :: ((r.pretty).data ++ (')' :: rest))).dropWhile pyIsSpace) =
          op :: ' ' :: ((r.pretty).data ++ (')' :: rest)) := by
        rw [List.dropWhile_cons, (by decide : pyIsSpace ' ' = true)]
        rw [if_pos rfl, List.dropWhile_cons, hws]
        simp
      simp only [hdw2]
      rw [parseExprTopWs ' ' _ (by decide)]
      rw [ihr hgr (')' :: rest) (Or.inr ⟨rest, Or.inr rfl⟩)]
      have hdw3 : ((')' :: rest).dropWhile pyIsSpace) = ')' :: rest := by
        rw [List.dropWhile_cons, (by decide : pyIsSpace ')' = false)]
        simp
      simp only [hdw3]

/-- C9 counterexample: the claim quantifies over every tree with no
`"X"`/`"?"` placeholder leaves, but a leaf whose name contains a space (a
token delimiter) does not round-trip: `pretty` prints `A B`, which re-parses
as the leaf `A`. -/
theorem claim_C9_counterexample :
    noPlaceholders (KernelNode.leaf "A B") = true ∧
      parseKernelExpr ((KernelNode.leaf "A B").pretty) ≠ some (KernelNode.leaf "A B") := by
  decide

/-- C9 amended: round-trip holds on the grammar's own vocabulary — for every
tree whose leaf names are non-empty and contain no whitespace, parentheses,
`+`, `*`, or square brackets, and whose operators are single non-whitespace,
non-square-bracket characters, rendering with `pretty()` and re-parsing with
`parse_kernel_expr` yields a structurally identical tree. -/
theorem claim_C9_amended (t : KernelNode) (h : goodTree t = true) :
    parseKernelExpr (t.pretty) = some t := by
  unfold parseKernelExpr
  rw [stripHighlightPretty t h]
  have h2 := roundTrip t h [] (Or.inl rfl)
  rw [List.append_nil] at h2
  rw [h2]

/-- C9 witness: the amended round-trip at the specification's own scenario
tree `(RBF1 + PER2)`. -/
theorem claim_C9_witness :
    goodTree (KernelNode.node '+' (KernelNode.leaf "RBF1") (KernelNode.leaf "PER2")) = true ∧
      parseKernelExpr ((KernelNode.node '+' (KernelNode.leaf "RBF1") (KernelNode.leaf "PER2")).pretty) =
        some (KernelNode.node '+' (KernelNode.leaf "RBF1") (KernelNode.leaf "PER2")) :=
  ⟨by decide, claim_C9_amended _ (by decide)⟩

/-! ### Claim C7 -/

/-- C7 counterexample: `parse_log` appends Steps in log order and does not
sort, so a Round whose Step headers appear out of numeric order is emitted
with a decreasing index sequence, falsifying the claim as stated about the
parser's output. -/
theorem claim_C7_counterexample :
    (parseLog ["Init: A", "Step 5 | accept | log_alpha=1", "Step 2 | accept | log_alpha=1"]).map
        (fun rs => rs.map (fun r => r.steps.map (fun st => st.idx))) = some [[5, 2]] ∧
      ¬ List.Pairwise (fun a b : Nat => a ≤ b) [5, 2] := by
  constructor
  · rfl
  · decide

/-- C7 amended: the log parser emits Steps in log order, which need not be
sorted; it is the timeline that sorts each Round's steps ascending by index
(`sorted(r["steps"], key=...)`, embedded as `sortSteps`) before any
processing, and that sorted sequence is non-decreasing in the index field. -/
theorem claim_C7_amended (steps : List Step) :
    List.Pairwise (fun a b : Step => a.idx ≤ b.idx) (sortSteps steps) := by
  haveI : IsTotal Step (fun a b : Step => a.idx ≤ b.idx) :=
    ⟨fun a b => Nat.le_total a.idx b.idx⟩
  haveI : IsTrans Step (fun a b : Step => a.idx ≤ b.idx) :=
    ⟨fun a b c hab hbc => le_trans hab hbc⟩
  exact List.sorted_insertionSort _ steps

/-! ### Claim C6 -/

theorem matchStepNil : matchStep [] = none := rfl

theorem initPrefixNil : ("Init: ".data).isPrefixOf ([] : List Char) = false := rfl

theorem countsAuxCons (cur : Option Nat) (l : String) (ls : List String) :
    countsAux cur (l :: ls) =
      if isInitLine l then
        (match cur with
         | none => countsAux (some 0) ls
         | some n => n :: countsAux (some 0) ls)
      else if isStepHeaderLine l then countsAux (cur.map (fun n => n + 1)) ls
      else countsAux cur ls := rfl

theorem parseLogAuxCounts : ∀ (ls : List String) (st : LogState) (rs : List Round),
    parseLogAux st ls = some rs →
    rs.map (fun r => r.steps.length) =
      st.acc.map (fun r => r.steps.length) ++
        countsAux (st.cur.map (fun c => c.stepsRev.length)) ls := by
  intro ls
  induction ls with
  | nil =>
      intro st rs h
      rw [parseLogAux] at h
      injection h with h2
      subst h2
      cases hc : st.cur <;>
        simp [closeCur, countsAux, CurRound.toRound, hc]
  | cons l ls ih =>
      intro st rs h
      rw [parseLogAux] at h
      split at h
      · exact absurd h (by simp)
      · rename_i st2 hp
        have hrec := ih st2 rs h
        simp only [procLine] at hp
        split at hp
        · rename_i hblank
          injection hp with hp2
          subst hp2
          rw [hrec, countsAuxCons]
          rw [show isInitLine l = false by
            rw [isInitLine, hblank, initPrefixNil]]
          rw [show isStepHeaderLine l = false by
            rw [isStepHeaderLine, hblank, matchStepNil]
            rfl]
          simp
        · split at hp
          · rename_i hblank hinit
            injection hp with hp2
            subst hp2
            rw [hrec]
            rw [countsAuxCons]
            rw [show isInitLine l = true by rw [isInitLine]; exact hinit]
            simp only [if_true]
            cases hc : st.cur with
            | none => simp [closeCur, hc]
            | some c => simp [closeCur, hc, CurRound.toRound]
          · split at hp
            · rename_i hblank hinit x idx status av hstep
              split at hp
              · exact absurd hp (by simp)
              · rename_i a hfloat
                split at hp
                · exact absurd hp (by simp)
                · rename_i c hcur
                  injection hp with hp2
                  subst hp2
                  rw [hrec, countsAuxCons]
                  rw [show isInitLine l = false by
                    rw [isInitLine]
                    simp [hinit]]
                  rw [show isStepHeaderLine l = true by
                    rw [isStepHeaderLine, hstep]
                    rfl]
                  simp [hcur]
            · rename_i hnb hinit hx hstep
              split at hp
              · rename_i hsever
                have hcounts : countsAux (st.cur.map (fun c => c.stepsRev.length)) (l :: ls) =
                    countsAux (st.cur.map (fun c => c.stepsRev.length)) ls := by
                  rw [countsAuxCons]
                  rw [show isInitLine l = false by rw [isInitLine]; simp [hinit]]
                  rw [show isStepHeaderLine l = false by rw [isStepHeaderLine, hstep]; rfl]
                  simp
                rw [hcounts]
                rw [setLastStep] at hp
                split at hp
                · exact absurd hp (by simp)
                · rename_i c hcur
                  split at hp
                  · exact absurd hp (by simp)
                  · rename_i s rest2 hrev
                    injection hp with hp2
                    subst hp2
                    rw [hrec]
                    simp [hcur, hrev]
              · split at hp
                · rename_i hsever hbefore
                  have hcounts : countsAux (st.cur.map (fun c => c.stepsRev.length)) (l :: ls) =
                      countsAux (st.cur.map (fun c => c.stepsRev.length)) ls := by
                    rw [countsAuxCons]
                    rw [show isInitLine l = false by rw [isInitLine]; simp [hinit]]
                    rw [show isStepHeaderLine l = false by rw [isStepHeaderLine, hstep]; rfl]
                    simp
                  rw [hcounts]
                  rw [setLastStep] at hp
                  split at hp
                  · exact absurd hp (by simp)
                  · rename_i c hcur
                    split at hp
                    · exact absurd hp (by simp)
                    · rename_i s rest2 hrev
                      injection hp with hp2
                      subst hp2
                      rw [hrec]
                      simp [hcur, hrev]
                · split at hp
                  · rename_i hsever hbefore hafter
                    have hcounts : countsAux (st.cur.map (fun c => c.stepsRev.length)) (l :: ls) =
                        countsAux (st.cur.map (fun c => c.stepsRev.length)) ls := by
                      rw [countsAuxCons]
                      rw [show isInitLine l = false by rw [isInitLine]; simp [hinit]]
                      rw [show isStepHeaderLine l = false by rw [isStepHeaderLine, hstep]; rfl]
                      simp
                    rw [hcounts]
                    rw [setLastStep] at hp
                    split at hp
                    · exact absurd hp (by simp)
                    · rename_i c hcur
                      split at hp
                      · exact absurd hp (by simp)
                      · rename_i s rest2 hrev
                        injection hp with hp2
                        subst hp2
                        rw [hrec]
                        simp [hcur, hrev]
                  · rename_i hsever hbefore hafter
                    injection hp with hp2
                    subst hp2
                    rw [hrec, countsAuxCons]
                    rw [show isInitLine l = false by rw [isInitLine]; simp [hinit]]
                    rw [show isStepHeaderLine l = false by rw [isStepHeaderLine, hstep]; rfl]
                    simp

theorem countsAuxLen : ∀ (ls : List String) (cur : Option Nat),
    (countsAux cur ls).length =
      (ls.filter isInitLine).length + (if cur.isSome then 1 else 0) := by
  intro ls
  induction ls with
  | nil => intro cur; cases cur <;> simp [countsAux]
  | cons l ls ih =>
      intro cur
      rw [countsAuxCons]
      by_cases hi : isInitLine l
      · rw [if_pos hi]
        cases cur with
        | none => simp [List.filter_cons, hi, ih]
        | some n => simp [List.filter_cons, hi, ih]
      · rw [if_neg hi]
        by_cases hs : isStepHeaderLine l
        · rw [if_pos hs]
          cases cur <;> simp [List.filter_cons, hi, ih]
        · rw [if_neg hs]
          simp [List.filter_cons, hi, ih]

/-- C6: whenever `parse_log` returns (it can raise on pathological logs, see
C2), the number of emitted Rounds equals the number of `Init: ` lines, and
the per-Round step counts are exactly the counts of Step-pattern lines
between each `Init: ` line and the next one or the end of input
(`countsAux none` scans the raw lines: a new count at each `Init: ` line,
incremented at each line matching the Step pattern, emitted at the next
`Init: ` or at end of input). -/
theorem claim_C6 (lines : List String) (rs : List Round)
    (h : parseLog lines = some rs) :
    rs.length = (lines.filter isInitLine).length ∧
      rs.map (fun r => r.steps.length) = countsAux none lines := by
  have hc := parseLogAuxCounts lines ⟨[], none⟩ rs h
  simp at hc
  refine ⟨?_, hc⟩
  have hlen := congrArg List.length hc
  simp only [List.length_map] at hlen
  rw [hlen, countsAuxLen]
  simp

/-- C6 witness: a concrete two-round log with an out-of-order second step
and a junk line; both the round count and the per-round step counts agree
with the line-level counts. -/
theorem claim_C6_witness :
    ([Round.mk "RBF1" [Step.mk 1 Status.accept 2 none none none,
                       Step.mk 0 Status.reject 3 none none none],
      Round.mk "PER1" []] : List Round).length =
        ((["Init: RBF1", "Step 1 | accept | log_alpha=2", "junk",
           "Step 0 | reject | log_alpha=3", "Init: PER1"].filter isInitLine).length) ∧
      ([Round.mk "RBF1" [Step.mk 1 Status.accept 2 none none none,
                         Step.mk 0 Status.reject 3 none none none],
        Round.mk "PER1" []] : List Round).map (fun r => r.steps.length) =
        countsAux none ["Init: RBF1", "Step 1 | accept | log_alpha=2", "junk",
           "Step 0 | reject | log_alpha=3", "Init: PER1"] :=
  claim_C6 _ _ (by rfl)

/-! ### Claim C2 -/

theorem goodAuxCons (hR hS : Bool) (l : String) (ls : List String) :
    goodAux hR hS (l :: ls) =
      (if pyStripL l.data = [] then goodAux hR hS ls
       else if ("Init: ".data).isPrefixOf (pyStripL l.data) then goodAux true false ls
       else
        match matchStep (pyStripL l.data) with
        | some x => (pyFloatQ x.2.2).isSome && hR && goodAux true true ls
        | none =>
            if ("Sever path: ".data).isPrefixOf (pyStripL l.data) ||
               ("Before: ".data).isPrefixOf (pyStripL l.data) ||
               ("After : ".data).isPrefixOf (pyStripL l.data) then
              hS && goodAux hR hS ls
            else goodAux hR hS ls) := rfl

theorem goodAuxSound : ∀ (ls : List String) (st : LogState) (hR hS : Bool),
    hR = st.cur.isSome →
    hS = (match st.cur with
          | none => false
          | some c => decide (c.stepsRev ≠ [])) →
    goodAux hR hS ls = true → (parseLogAux st ls).isSome := by
  intro ls
  induction ls with
  | nil =>
      intro st hR hS _ _ _
      rw [parseLogAux]
      simp
  | cons l ls ih =>
      intro st hR hS hRst hSst hg
      rw [goodAuxCons] at hg
      rw [parseLogAux]
      cases hp : procLine st l with
      | none =>
          exfalso
          simp only [procLine] at hp
          split at hp
          · simp at hp
          · split at hp
            · simp at hp
            · split at hp
              · rename_i hblank hinit x idx status av hstep
                rw [if_neg hblank, if_neg hinit] at hg
                simp only [hstep] at hg
                split at hp
                · rename_i hfloat
                  rw [hfloat] at hg
                  simp at hg
                · rename_i a hfloat
                  split at hp
                  · rename_i hcur
                    rw [hcur] at hRst
                    simp at hRst
                    rw [hRst] at hg
                    simp [hfloat] at hg
                  · simp at hp
              · rename_i hblank hinit hx hstep
                rw [if_neg hblank, if_neg hinit] at hg
                simp only [hstep] at hg
                split at hp
                · rename_i hsever
                  rw [if_pos (by rw [hsever]; simp)] at hg
                  rw [setLastStep] at hp
                  split at hp
                  · rename_i hcur
                    rw [hcur] at hSst
                    simp at hSst
                    rw [hSst] at hg
                    simp at hg
                  · rename_i c hcur
                    split at hp
                    · rename_i hrev
                      rw [hcur] at hSst
                      simp only [hrev] at hSst
                      simp at hSst
                      rw [hSst] at hg
                      simp at hg
                    · simp at hp
                · split at hp
                  · rename_i hsever hbefore
                    rw [if_pos (by rw [hbefore]; simp)] at hg
                    rw [setLastStep] at hp
                    split at hp
                    · rename_i hcur
                      rw [hcur] at hSst
                      simp at hSst
                      rw [hSst] at hg
                      simp at hg
                    · rename_i c hcur
                      split at hp
                      · rename_i hrev
                        rw [hcur] at hSst
                        simp only [hrev] at hSst
                        simp at hSst
                        rw [hSst] at hg
                        simp at hg
                      · simp at hp
                  · split at hp
                    · rename_i hsever hbefore hafter
                      rw [if_pos (by rw [hafter]; simp)] at hg
                      rw [setLastStep] at hp
                      split at hp
                      · rename_i hcur
                        rw [hcur] at hSst
                        simp at hSst
                        rw [hSst] at hg
                        simp at hg
                      · rename_i c hcur
                        split at hp
                        · rename_i hrev
                          rw [hcur] at hSst
                          simp only [hrev] at hSst
                          simp at hSst
                          rw [hSst] at hg
                          simp at hg
                        · simp at hp
                    · simp at hp
      | some st2 =>
          simp only [procLine] at hp
          split at hp
          · rename_i hblank
            injection hp with hp2
            subst hp2
            rw [if_pos hblank] at hg
            exact ih st hR hS hRst hSst hg
          · split at hp
            · rename_i hblank hinit
              injection hp with hp2
              subst hp2
              rw [if_neg hblank, if_pos hinit] at hg
              exact ih _ true false (by simp) (by simp) hg
            · split at hp
              · rename_i hblank hinit x idx status av hstep
                rw [if_neg hblank, if_neg hinit] at hg
                simp only [hstep] at hg
                split at hp
                · simp at hp
                · rename_i a hfloat
                  split at hp
                  · simp at hp
                  · rename_i c hcur
                    injection hp with hp2
                    subst hp2
                    simp only [Bool.and_eq_true] at hg
                    exact ih _ true true (by simp) (by simp) hg.2
              · rename_i hblank hinit hx hstep
                rw [if_neg hblank, if_neg hinit] at hg
                simp only [hstep] at hg
                split at hp
                · rename_i hsever
                  rw [if_pos (by rw [hsever]; simp)] at hg
                  rw [setLastStep] at hp
                  split at hp
                  · simp at hp
                  · rename_i c hcur
                    split at hp
                    · simp at hp
                    · rename_i s rest2 hrev
                      injection hp with hp2
                      subst hp2
                      simp only [Bool.and_eq_true] at hg
                      refine ih _ hR hS ?_ ?_ hg.2
                      · simp [hRst, hcur]
                      · rw [hSst]
                        simp [hcur, hrev]
                · split at hp
                  · rename_i hsever hbefore
                    rw [if_pos (by rw [hbefore]; simp)] at hg
                    rw [setLastStep] at hp
                    split at hp
                    · simp at hp
                    · rename_i c hcur
                      split at hp
                      · simp at hp
                      · rename_i s rest2 hrev
                        injection hp with hp2
                        subst hp2
                        simp only [Bool.and_eq_true] at hg
                        refine ih _ hR hS ?_ ?_ hg.2
                        · simp [hRst, hcur]
                        · rw [hSst]
                          simp [hcur, hrev]
                  · split at hp
                    · rename_i hsever hbefore hafter
                      rw [if_pos (by rw [hafter]; simp)] at hg
                      rw [setLastStep] at hp
                      split at hp
                      · simp at hp
                      · rename_i c hcur
                        split at hp
                        · simp at hp
                        · rename_i s rest2 hrev
                          injection hp with hp2
                          subst hp2
                          simp only [Bool.and_eq_true] at hg
                          refine ih _ hR hS ?_ ?_ hg.2
                          · simp [hRst, hcur]
                          · rw [hSst]
                            simp [hcur, hrev]
                    · rename_i hsever hbefore hafter
                      injection hp with hp2
                      subst hp2
                      rw [if_neg (by simp [hsever, hbefore, hafter])] at hg
                      exact ih st hR hS hRst hSst hg

/-- C2 counterexample: the claim states that a field line before any Step,
and a Step header before any `Init:` line, are silently skipped, and that a
non-numeric `log_alpha` fails locally with the Round continuing; in the
code each of these raises and the whole parse aborts (`none`): a `Sever
path:` line with no current step (`TypeError`), a Step header with no open
round (`TypeError`), and a non-numeric `log_alpha` (`ValueError`), which also
discards the adjacent well-formed Step 1 rather than continuing the
Round. -/
theorem claim_C2_counterexample :
    parseLog ["Sever path: L"] = none ∧
      parseLog ["Step 0 | accept | log_alpha=1"] = none ∧
      parseLog ["Init: A", "Step 0 | accept | log_alpha=.",
                "Step 1 | accept | log_alpha=1"] = none :=
  ⟨rfl, rfl, rfl⟩

/-- C2 amended: (a) a line matching no recognized prefix and not the Step
pattern (or blank after stripping) is silently skipped — processing it
returns the state unchanged and never raises; (b) `parse_log` never raises
on logs in which every Step header follows an `Init:` line and carries a
numerically valid `log_alpha`, and every `Sever path:`/`Before:`/`After :`
field line follows a Step header within its Round (the flag scan
`goodAux`); on logs violating these conditions it can raise, aborting the
whole parse — a non-numeric `log_alpha` is not recovered locally. -/
theorem claim_C2_amended :
    (∀ (st : LogState) (l : String), isIgnoredLine l = true → procLine st l = some st) ∧
      (∀ ls : List String, goodAux false false ls = true → (parseLog ls).isSome) := by
  constructor
  · intro st l h
    simp only [isIgnoredLine, Bool.or_eq_true, Bool.and_eq_true, Bool.not_eq_true',
      List.isEmpty_iff] at h
    simp only [procLine]
    rcases h with h | ⟨⟨⟨⟨h1, h2⟩, h3⟩, h4⟩, h5⟩
    · rw [if_pos h]
    · by_cases hb : pyStripL l.data = []
      · rw [if_pos hb]
      · rw [if_neg hb, if_neg (by simp [h1])]
        have h2n : matchStep (pyStripL l.data) = none := by
          cases hm : matchStep (pyStripL l.data) with
          | none => rfl
          | some x =>
              rw [hm] at h2
              simp at h2
        simp only [h2n]
        rw [if_neg (by simp [h3]), if_neg (by simp [h4]), if_neg (by simp [h5])]
  · intro ls h
    exact goodAuxSound ls ⟨[], none⟩ false false rfl rfl h

/-- C2 witness: the amended theorem applied to a concrete junk line (left
untouched, no exception) and to the specification's well-ordered scenario
log (parsed without raising). -/
theorem claim_C2_witness :
    isIgnoredLine "== totally unrecognized ==" = true ∧
      procLine ⟨[], none⟩ "== totally unrecognized ==" = some ⟨[], none⟩ ∧
      goodAux false false ["Init: RBF1", "Step 0 | accept | log_alpha=-0.512",
        "Sever path: L", "Before: RBF1", "After : PER1"] = true ∧
      (parseLog ["Init: RBF1", "Step 0 | accept | log_alpha=-0.512",
        "Sever path: L", "Before: RBF1", "After : PER1"]).isSome = true :=
  ⟨by rfl, claim_C2_amended.1 ⟨[], none⟩ "== totally unrecognized ==" (by rfl),
   by rfl, claim_C2_amended.2 _ (by rfl)⟩

/-! ### Claim C5 -/

/-- C5 counterexample: the parser does emit a zero-step Round as-is, but the
claim also states that processing it through the timeline does not raise;
it does — the score-range computation (`min`/`max` of an empty sequence)
raises `ValueError` before anything else, so the per-round plan is `none`. -/
theorem claim_C5_counterexample :
    parseLog ["Init: RBF1"] = some [Round.mk "RBF1" []] ∧
      roundPlan (Round.mk "RBF1" []) = none :=
  ⟨rfl, rfl⟩

/-- C5 amended: a Round containing zero Steps is valid for the log parser
and emitted as-is, but the timeline always fails fast on it: for every Round
with an empty step list, the per-round processing raises at the score-range
computation (`min()` of an empty sequence) — there IS a fatal error path in
the core for such a Round. -/
theorem claim_C5_amended :
    (∀ r : Round, r.steps = [] → roundPlan r = none) ∧
      parseLog ["Init: RBF1"] = some [Round.mk "RBF1" []] := by
  constructor
  · intro r h
    unfold roundPlan
    rw [h]
    rfl
  · rfl

/-- C5 witness: the amended theorem applied to the concrete zero-step
round. -/
theorem claim_C5_witness : roundPlan (Round.mk "RBF1" []) = none :=
  claim_C5_amended.1 (Round.mk "RBF1" []) rfl

/-! ### Claim C8 -/

theorem stepLoopChain : ∀ (steps : List Step) (chain out : List (KernelNode × Option ℚ)),
    stepLoop chain steps = some out →
    out = chain ++ (steps.take (5 - chain.length)).map chainEntryOf := by
  intro steps
  induction steps with
  | nil =>
      intro chain out h
      rw [stepLoop] at h
      injection h with h2
      subst h2
      simp
  | cons st rest ih =>
      intro chain out h
      rw [stepLoop] at h
      split at h
      · exact absurd h (by simp)
      · rename_i bs hbs
        split at h
        · exact absurd h (by simp)
        · rename_i bk hbk
          split at h
          · exact absurd h (by simp)
          · rename_i afs hafs
            split at h
            · exact absurd h (by simp)
            · rename_i ak hak
              by_cases hlen : chain.length < 5
              · rw [if_pos hlen] at h
                have hrec := ih _ out h
                rw [hrec]
                have hentry : chainEntryOf st =
                    (if st.status = Status.accept then ak else bk, some st.log_alpha) := by
                  unfold chainEntryOf
                  by_cases hst : st.status = Status.accept
                  · rw [if_pos hst, if_pos hst, hafs]
                    simp [hak]
                  · rw [if_neg hst, if_neg hst, hbs]
                    simp [hbk]
                have htake : (st :: rest).take (5 - chain.length) =
                    st :: rest.take (5 - (chain.length + 1)) := by
                  have h5 : 5 - chain.length = (5 - (chain.length + 1)) + 1 := by omega
                  rw [h5, List.take_succ_cons]
                rw [htake]
                simp [hentry, List.length_append]
              · rw [if_neg hlen] at h
                have hrec := ih _ out h
                rw [hrec]
                have h5 : 5 - chain.length = 0 := by omega
                rw [h5]
                simp

/-- C8: whenever the per-round plan is produced, its chain starts with the
Round's parsed initial kernel (with no score) and then, for the first four
steps in sorted index order, contains the after tree if the step was
accepted and otherwise the before tree, each paired with that step's
`log_alpha` — stopping once 5 entries are collected including the initial
one; in particular the chain length is `min 5 (number of steps + 1)`, so a
Round with 6 accepted steps yields exactly 5 entries, never 6. -/
theorem claim_C8 (r : Round) (plan : Plan) (h : roundPlan r = some plan) :
    (∃ init, parseKernelExpr r.init = some init ∧
       plan.chain = (init, none) :: ((sortSteps r.steps).take 4).map chainEntryOf) ∧
      plan.chain.length = min 5 (r.steps.length + 1) := by
  simp only [roundPlan] at h
  split at h
  · exact absurd h (by simp)
  · rename_i mm hmm
    split at h
    · exact absurd h (by simp)
    · rename_i initK hinit
      split at h
      · exact absurd h (by simp)
      · rename_i chain hloop
        injection h with h2
        subst h2
        have hchain := stepLoopChain _ _ _ hloop
        simp only [List.length_cons, List.length_nil] at hchain
        constructor
        · exact ⟨initK, hinit, by rw [hchain]; simp⟩
        · rw [hchain]
          simp only [List.length_append, List.length_map, List.length_take,
            List.length_cons, List.length_nil]
          have hlen : (sortSteps r.steps).length = r.steps.length :=
            List.length_insertionSort _ r.steps
          omega

/-- C8 witness: a Round with 6 accepted steps yields a chain of exactly 5
entries — the initial kernel plus the first 4 steps' resulting (after)
kernels, each paired with that step's score. -/
theorem claim_C8_witness :
    ∃ plan, roundPlan (Round.mk "RBF1"
        [Step.mk 0 Status.accept 1 none (some "RBF1") (some "PER1"),
         Step.mk 1 Status.accept 1 none (some "RBF1") (some "PER1"),
         Step.mk 2 Status.accept 1 none (some "RBF1") (some "PER1"),
         Step.mk 3 Status.accept 1 none (some "RBF1") (some "PER1"),
         Step.mk 4 Status.accept 1 none (some "RBF1") (some "PER1"),
         Step.mk 5 Status.accept 1 none (some "RBF1") (some "PER1")]) = some plan ∧
      plan.chain.length = 5 ∧
      plan.chain = [(KernelNode.leaf "RBF1", none),
        (KernelNode.leaf "PER1", some 1), (KernelNode.leaf "PER1", some 1),
        (KernelNode.leaf "PER1", some 1), (KernelNode.leaf "PER1", some 1)] := by
  have hs : (roundPlan (Round.mk "RBF1"
      [Step.mk 0 Status.accept 1 none (some "RBF1") (some "PER1"),
       Step.mk 1 Status.accept 1 none (some "RBF1") (some "PER1"),
       Step.mk 2 Status.accept 1 none (some "RBF1") (some "PER1"),
       Step.mk 3 Status.accept 1 none (some "RBF1") (some "PER1"),
       Step.mk 4 Status.accept 1 none (some "RBF1") (some "PER1"),
       Step.mk 5 Status.accept 1 none (some "RBF1") (some "PER1")])).isSome = true := rfl
  have hsome := (Option.some_get hs).symm
  obtain ⟨⟨init, hinit, hchain⟩, hlen⟩ := claim_C8 _ _ hsome
  refine ⟨_, hsome, ?_, ?_⟩
  · rw [hlen]
    decide
  · rw [hchain]
    have hi : init = KernelNode.leaf "RBF1" := by
      have h2 : parseKernelExpr "RBF1" = some (KernelNode.leaf "RBF1") := rfl
      injection (h2.symm.trans hinit) with h3
      exact h3.symm
    rw [hi]
    rfl
